import Mathlib

/-!
Verification of the duplicate-line detection engine in
`src/chapter01/exercises/ex3.go` (package `exercises`).

The Go code is shallowly embedded: Go maps become association lists
(`List (key × value)`), the channel fan-in of the multi-source path becomes
an arbitrary interleaving (`Interleave`) of the per-source record streams,
and file I/O becomes an explicit `Option (List String)` holding the lines a
source yields (`none` models a failed `os.Open`).  Machine integers are
modelled as `Nat` with explicit reduction `% 2 ^ 32` where the SHA-256
arithmetic overflows.
-/

namespace Ex3

/-! ## Bytes of a string

Go's `len(s)` and `[]byte(s)` work on the UTF-8 encoding of the string, so
the embedding encodes each character to its UTF-8 bytes. -/

/-- UTF-8 encoding of a single character (code point), as byte values. -/
def utf8Bytes (c : Char) : List Nat :=
  let n := c.toNat
  if n < 128 then [n]
  else if n < 2048 then [192 + n / 64, 128 + n % 64]
  else if n < 65536 then [224 + n / 4096, 128 + (n / 64) % 64, 128 + n % 64]
  else [240 + n / 262144, 128 + (n / 4096) % 64, 128 + (n / 64) % 64, 128 + n % 64]

/-- The UTF-8 bytes of a string, mirroring Go's `[]byte(s)`. -/
def strBytes (s : String) : List Nat :=
  s.data.foldr (fun c acc => utf8Bytes c ++ acc) []

/-- Byte length of a string, mirroring Go's `len(s)`. -/
def byteLen (s : String) : Nat := (strBytes s).length

/-! ## SHA-256

`hashString` in ex3.go is `fmt.Sprintf("%x", sha256.Sum256([]byte(s)))`.
The FIPS 180-4 SHA-256 compression is reproduced here over `Nat`, with every
32-bit operation reduced modulo `2 ^ 32`. -/

/-- Reduce to a 32-bit word. -/
def w32 (n : Nat) : Nat := n % 4294967296

/-- Right rotation of a 32-bit word by `k` bits. -/
def rotr (k x : Nat) : Nat := w32 ((x >>> k) ||| (x <<< (32 - k)))

def smallSigma0 (x : Nat) : Nat := (rotr 7 x) ^^^ (rotr 18 x) ^^^ (x >>> 3)

def smallSigma1 (x : Nat) : Nat := (rotr 17 x) ^^^ (rotr 19 x) ^^^ (x >>> 10)

def bigSigma0 (x : Nat) : Nat := (rotr 2 x) ^^^ (rotr 13 x) ^^^ (rotr 22 x)

def bigSigma1 (x : Nat) : Nat := (rotr 6 x) ^^^ (rotr 11 x) ^^^ (rotr 25 x)

/-- SHA-256 choice function; `x ^^^ 4294967295` is 32-bit complement. -/
def chF (x y z : Nat) : Nat := (x &&& y) ^^^ ((x ^^^ 4294967295) &&& z)

/-- SHA-256 majority function. -/
def majF (x y z : Nat) : Nat := (x &&& y) ^^^ (x &&& z) ^^^ (y &&& z)

/-- The eight SHA-256 chaining words. -/
structure Hash8 where
  (v0 v1 v2 v3 v4 v5 v6 v7 : Nat)

/-- Initial SHA-256 hash value (FIPS 180-4 section 5.3.3). -/
def initH : Hash8 :=
  ⟨1779033703, 3144134277, 1013904242, 2773480762,
   1359893119, 2600822924, 528734635, 1541459225⟩

/-- The 64 SHA-256 round constants (FIPS 180-4 section 4.2.2). -/
def roundK : List Nat :=
  [1116352408, 1899447441, 3049323471, 3921009573,
   961987163, 1508970993, 2453635748, 2870763221,
   3624381080, 310598401, 607225278, 1426881987,
   1925078388, 2162078206, 2614888103, 3248222580,
   3835390401, 4022224774, 264347078, 604807628,
   770255983, 1249150122, 1555081692, 1996064986,
   2554220882, 2821834349, 2952996808, 3210313671,
   3336571891, 3584528711, 113926993, 338241895,
   666307205, 773529912, 1294757372, 1396182291,
   1695183700, 1986661051, 2177026350, 2456956037,
   2730485921, 2820302411, 3259730800, 3345764771,
   3516065817, 3600352804, 4094571909, 275423344,
   430227734, 506948616, 659060556, 883997877,
   958139571, 1322822218, 1537002063, 1747873779,
   1955562222, 2024104815, 2227730452, 2361852424,
   2428436474, 2756734187, 3204031479, 3329325298]

/-- Extend the 16 block words by `k` more message-schedule words. -/
def extendW : List Nat → Nat → List Nat
  | ws, 0 => ws
  | ws, k + 1 =>
      let n := ws.length
      let next := w32 (smallSigma1 (ws.getD (n - 2) 0) + ws.getD (n - 7) 0 +
                       smallSigma0 (ws.getD (n - 15) 0) + ws.getD (n - 16) 0)
      extendW (ws ++ [next]) k

/-- Working variables a–h of one compression round. -/
structure RoundState where
  (a b c d e f g h : Nat)

/-- One SHA-256 round, consuming a pair (round constant, schedule word). -/
def round1 (s : RoundState) (kw : Nat × Nat) : RoundState :=
  let t1 := w32 (s.h + bigSigma1 s.e + chF s.e s.f s.g + kw.1 + kw.2)
  let t2 := w32 (bigSigma0 s.a + majF s.a s.b s.c)
  ⟨w32 (t1 + t2), s.a, s.b, s.c, w32 (s.d + t1), s.e, s.f, s.g⟩

/-- Compress one 16-word block into the chaining state. -/
def compress (H : Hash8) (block : List Nat) : Hash8 :=
  let ws := extendW block 48
  let s := (roundK.zip ws).foldl round1 ⟨H.v0, H.v1, H.v2, H.v3, H.v4, H.v5, H.v6, H.v7⟩
  ⟨w32 (H.v0 + s.a), w32 (H.v1 + s.b), w32 (H.v2 + s.c), w32 (H.v3 + s.d),
   w32 (H.v4 + s.e), w32 (H.v5 + s.f), w32 (H.v6 + s.g), w32 (H.v7 + s.h)⟩

/-- Consume the padded message, 16 words at a time. -/
def processWords : Hash8 → List Nat → Hash8
  | H, w0 :: w1 :: w2 :: w3 :: w4 :: w5 :: w6 :: w7 ::
       w8 :: w9 :: w10 :: w11 :: w12 :: w13 :: w14 :: w15 :: rest =>
      processWords
        (compress H [w0, w1, w2, w3, w4, w5, w6, w7, w8, w9, w10, w11, w12, w13, w14, w15]) rest
  | H, _ => H

/-- Big-endian 32-bit words from a byte list. -/
def toWords : List Nat → List Nat
  | b0 :: b1 :: b2 :: b3 :: rest =>
      (b0 * 16777216 + b1 * 65536 + b2 * 256 + b3) :: toWords rest
  | _ => []

/-- FIPS 180-4 padding: `0x80`, zeros to 56 mod 64, 64-bit big-endian bit length. -/
def padBytes (msg : List Nat) : List Nat :=
  let L := msg.length
  let zeros := (120 - ((L + 1) % 64)) % 64
  let bits := 8 * L
  msg ++ 128 :: List.replicate zeros 0 ++
    [(bits >>> 56) % 256, (bits >>> 48) % 256, (bits >>> 40) % 256, (bits >>> 32) % 256,
     (bits >>> 24) % 256, (bits >>> 16) % 256, (bits >>> 8) % 256, bits % 256]

/-- Big-endian bytes of a 32-bit word. -/
def wordBytes (w : Nat) : List Nat := [(w >>> 24) % 256, (w >>> 16) % 256, (w >>> 8) % 256, w % 256]

/-- SHA-256 digest (32 bytes) of a byte list, as in Go's `sha256.Sum256`. -/
def sha256 (msg : List Nat) : List Nat :=
  let H := processWords initH (toWords (padBytes msg))
  wordBytes H.v0 ++ wordBytes H.v1 ++ wordBytes H.v2 ++ wordBytes H.v3 ++
  wordBytes H.v4 ++ wordBytes H.v5 ++ wordBytes H.v6 ++ wordBytes H.v7

/-- Lowercase hex digit, as produced by Go's `%x` verb. -/
def hexDigit (n : Nat) : Char := Char.ofNat (if n < 10 then 48 + n else 87 + n)

/-- Two lowercase hex digits of one byte. -/
def byteHex (b : Nat) : List Char := [hexDigit (b / 16), hexDigit (b % 16)]

/-- Hex characters of a byte list. -/
def hexChars (bs : List Nat) : List Char :=
  bs.foldr (fun b acc => byteHex b ++ acc) []

/-- Function `hashString` from ex3.go: `fmt.Sprintf("%x", sha256.Sum256([]byte(s)))`. -/
def hashString (s : String) : String := String.mk (hexChars (sha256 (strBytes s)))

/-- Function `getKey` from ex3.go: lines shorter than 32 bytes are their own key,
longer lines are keyed by their hex SHA-256 digest. -/
def getKey (s : String) : String :=
  if byteLen s < 32 then s else hashString s

/-! ## Records and the occurrence mapping

`rawLineData` and `lineData` are the two structs of ex3.go.  Go's
`map[string]V` is embedded as an association list with at most one binding
per key: assignment updates the existing binding in place or appends a new
one; iteration order over the list stands in for Go's (unspecified) map
iteration order. -/

/-- Struct `rawLineData` from ex3.go.  `lineText` holds the record's key: the
Source Reader stores `getKey(inputText)` in it, not the raw line. -/
structure rawLineData where
  lineText : String
  fileName : String
  lineNum : Nat
  deriving DecidableEq

/-- Struct `lineData` from ex3.go: per-source location lists and total count. -/
structure lineData where
  locations : List (String × List Nat)
  count : Nat
  deriving DecidableEq

/-- Map read `m[k]` (with `ok` as `Option`). -/
def alookup {α : Type} : List (String × α) → String → Option α
  | [], _ => none
  | (k', v) :: rest, k => if k = k' then some v else alookup rest k

/-- Map assignment `m[k] = v`: update in place or append a fresh binding. -/
def aupsert {α : Type} : List (String × α) → String → α → List (String × α)
  | [], k, v => [(k, v)]
  | (k', v') :: rest, k, v =>
      if k = k' then (k, v) :: rest else (k', v') :: aupsert rest k v

/-- Go's `locs[f] = append(locs[f], n)`: a nil slice appends to `[n]`. -/
def locAppend (locs : List (String × List Nat)) (f : String) (n : Nat) :
    List (String × List Nat) :=
  aupsert locs f ((alookup locs f).getD [] ++ [n])

/-- Location list of one source in an entry (`[]` when absent, as a nil slice). -/
def locsGet (locs : List (String × List Nat)) (f : String) : List Nat :=
  (alookup locs f).getD []

/-- Total number of line numbers stored across an entry's per-source lists. -/
def sumLocs (locs : List (String × List Nat)) : Nat :=
  (locs.map (fun p => p.2.length)).sum

/-! ## The aggregator of `DupDetectFiles`

The consumer goroutine of `DupDetectFiles` (ex3.go lines 104–115) handles
one record at a time; draining the channel in arrival order is a left fold
over the arrival list. -/

/-- One iteration of the aggregator loop: unseen key ⇒ fresh entry with a
single location and count 1; seen key ⇒ append the location, bump the count. -/
def step (counts : List (String × lineData)) (r : rawLineData) :
    List (String × lineData) :=
  match alookup counts r.lineText with
  | none => aupsert counts r.lineText ⟨[(r.fileName, [r.lineNum])], 1⟩
  | some d => aupsert counts r.lineText ⟨locAppend d.locations r.fileName r.lineNum, d.count + 1⟩

/-- The final occurrence mapping after draining the arrival list. -/
def aggregate (recs : List rawLineData) : List (String × lineData) :=
  recs.foldl step []

/-- The report filter of `DupDetectFiles` (lines 116–124): entries whose
count strictly exceeds the threshold, in map iteration order. -/
def filesEmit (threshold : Nat) (counts : List (String × lineData)) :
    List (String × lineData) :=
  counts.filter (fun p => decide (threshold < p.2.count))

/-! ## Source Readers and arrival interleavings -/

/-- The scan loop of `collectLines`: 1-based line numbers from counter `n`,
each line keyed through `getKey` before it is sent. -/
def collectFrom (f : String) : Nat → List String → List rawLineData
  | _, [] => []
  | n, l :: ls => ⟨getKey l, f, n + 1⟩ :: collectFrom f (n + 1) ls

/-- The record stream one successfully opened source emits. -/
def sourceRecords (f : String) (ls : List String) : List rawLineData :=
  collectFrom f 0 ls

/-- Function `collectLines` from ex3.go with the `os.Open` outcome made explicit:
`none` is an open failure.  Returns the emitted records and whether the
"Error in opening …, discarding it" message was printed. -/
def collectLines (fileName : String) (contents : Option (List String)) :
    List rawLineData × Bool :=
  match contents with
  | none => ([], true)
  | some ls => (sourceRecords fileName ls, false)

/-- Record streams of a source list whose open outcomes are explicit. -/
def emissions (srcs : List (String × Option (List String))) : List (List rawLineData) :=
  srcs.map (fun s => (collectLines s.1 s.2).1)

/-- Record streams of a list of sources that all open successfully. -/
def okStreams (srcs : List (String × List String)) : List (List rawLineData) :=
  srcs.map (fun s => sourceRecords s.1 s.2)

/-- Relation `Shuffle xs ys zs`: `zs` merges `xs` and `ys`, keeping each one's order. -/
inductive Shuffle {α : Type} : List α → List α → List α → Prop where
  | nil : Shuffle [] [] []
  | left {xs ys zs : List α} {x : α} : Shuffle xs ys zs → Shuffle (x :: xs) ys (x :: zs)
  | right {xs ys zs : List α} {y : α} : Shuffle xs ys zs → Shuffle xs (y :: ys) (y :: zs)

/-- Relation `Interleave ls out`: `out` is an arrival order of the streams `ls` that
preserves each stream's own order — the possible channel fan-ins. -/
inductive Interleave {α : Type} : List (List α) → List α → Prop where
  | nil : Interleave [] []
  | cons {l : List α} {ls : List (List α)} {rest out : List α} :
      Shuffle l rest out → Interleave ls rest → Interleave (l :: ls) out

/-! ## The sorted fast path `DupDetectSorted`

Lines 137–174 of ex3.go.  The loop state is the mapping, `prevInputText`
(the sentinel `""` meaning "no run open") and the 1-based counter `i`.
`prevLineDatum` of line 159 is read as `counts[prevInputText]`, the entry of
the run being closed (the identifier is bound nowhere in the repository; Go's
zero-value map read is rendered with `getD`).  Faithful to the source, no
finalization happens after the last line. -/

def sortedLoop (fileName : String) :
    List (String × lineData) → String → Nat → List String → List (String × lineData)
  | counts, _, _, [] => counts
  | counts, prev, i, l :: ls =>
      match alookup counts l with
      | none =>
          let counts1 :=
            if prev = "" then counts
            else
              let prevD := (alookup counts prev).getD ⟨[], 0⟩
              aupsert counts prev ⟨locAppend prevD.locations fileName (i - 1), prevD.count⟩
          sortedLoop fileName (aupsert counts1 l ⟨[(fileName, [i])], 1⟩) l (i + 1) ls
      | some d => sortedLoop fileName (aupsert counts l ⟨d.locations, d.count + 1⟩) prev (i + 1) ls

/-- The mapping `DupDetectSorted` holds when its scan loop ends. -/
def runSorted (fileName : String) (ls : List String) : List (String × lineData) :=
  sortedLoop fileName [] "" 1 ls

/-- The report filter of `DupDetectSorted` (lines 169–173). -/
def sortedEmit (threshold : Nat) (counts : List (String × lineData)) :
    List (String × lineData) :=
  counts.filter (fun p => decide (threshold < p.2.count))

/-- The printed rows of `DupDetectSorted`'s report: count, line, and the
first two stored boundaries (`locations[fileName][0]` and `[1]`; the Go code
indexes them unconditionally, here `getD` stands in so the panic case is
visible as a missing second element instead). -/
def sortedReport (fileName : String) (threshold : Nat)
    (counts : List (String × lineData)) : List (Nat × String × Nat × Nat) :=
  (sortedEmit threshold counts).map
    (fun p => (p.2.count, p.1, (locsGet p.2.locations fileName).getD 0 0,
               (locsGet p.2.locations fileName).getD 1 0))

/-! ## Views of the mapping used by the statements -/

/-- Location list of source `f` in the entry of key `k` (empty if either is absent). -/
def locsOf (m : List (String × lineData)) (k f : String) : List Nat :=
  match alookup m k with
  | none => []
  | some e => locsGet e.locations f

/-- Count stored for key `k` (0 if absent). -/
def countOf (m : List (String × lineData)) (k : String) : Nat :=
  match alookup m k with
  | none => 0
  | some e => e.count

/-- Total stored line numbers of key `k`'s entry (0 if absent). -/
def sumLocsOf (m : List (String × lineData)) (k : String) : Nat :=
  match alookup m k with
  | none => 0
  | some e => sumLocs e.locations

/-- Count of key `k` with presence made visible (`none` = key unseen). -/
def countView (m : List (String × lineData)) (k : String) : Option Nat :=
  (alookup m k).map (fun e => e.count)

end Ex3

namespace Ex3

/-! ## Association-list map lemmas -/

theorem alookup_aupsert_self {α : Type} (m : List (String × α)) (k : String) (v : α) :
    alookup (aupsert m k v) k = some v := by
  induction m with
  | nil => simp [aupsert, alookup]
  | cons p rest ih =>
      obtain ⟨k', v'⟩ := p
      by_cases h : k = k' <;> simp [aupsert, alookup, h, ih]

theorem alookup_aupsert_ne {α : Type} (m : List (String × α)) (k k' : String) (v : α)
    (h : k' ≠ k) : alookup (aupsert m k v) k' = alookup m k' := by
  induction m with
  | nil => simp [aupsert, alookup, h]
  | cons p rest ih =>
      obtain ⟨k'', v''⟩ := p
      by_cases h1 : k = k''
      · subst h1
        simp [aupsert, alookup, h]
      · by_cases h2 : k' = k'' <;> simp [aupsert, alookup, h1, h2, ih]

theorem locsGet_locAppend (locs : List (String × List Nat)) (f g : String) (n : Nat) :
    locsGet (locAppend locs f n) g = locsGet locs g ++ (if g = f then [n] else []) := by
  by_cases h : g = f
  · subst h
    simp [locsGet, locAppend, alookup_aupsert_self]
  · simp [locsGet, locAppend, alookup_aupsert_ne _ _ _ _ h, h]

theorem sumLocs_locAppend (locs : List (String × List Nat)) (f : String) (n : Nat) :
    sumLocs (locAppend locs f n) = sumLocs locs + 1 := by
  induction locs with
  | nil => simp [locAppend, aupsert, alookup, sumLocs]
  | cons p rest ih =>
      obtain ⟨g, l⟩ := p
      by_cases h : f = g
      · subst h
        simp [locAppend, aupsert, alookup, sumLocs]
        omega
      · have hne : f ≠ g := h
        have : locAppend ((g, l) :: rest) f n = (g, l) :: locAppend rest f n := by
          simp [locAppend, aupsert, alookup, hne, Ne.symm hne]
        rw [this]
        simp [sumLocs] at ih ⊢
        omega

/-! ## One aggregator step -/

theorem locsOf_step (m : List (String × lineData)) (r : rawLineData) (k f : String) :
    locsOf (step m r) k f =
      locsOf m k f ++ (if r.lineText = k ∧ r.fileName = f then [r.lineNum] else []) := by
  by_cases hk : r.lineText = k
  · subst hk
    cases hm : alookup m r.lineText with
    | none =>
        simp [locsOf, step, hm, alookup_aupsert_self, locsGet, alookup]
        by_cases hf : r.fileName = f
        · subst hf; simp
        · simp [hf, Ne.symm hf]
    | some d =>
        simp [locsOf, step, hm, alookup_aupsert_self, locsGet_locAppend]
        by_cases hf : r.fileName = f
        · subst hf; simp
        · simp [hf, Ne.symm hf]
  · have hne : k ≠ r.lineText := fun h => hk h.symm
    cases hm : alookup m r.lineText with
    | none => simp [locsOf, step, hm, alookup_aupsert_ne _ _ _ _ hne, hk]
    | some d => simp [locsOf, step, hm, alookup_aupsert_ne _ _ _ _ hne, hk]

theorem countOf_step (m : List (String × lineData)) (r : rawLineData) (k : String) :
    countOf (step m r) k = countOf m k + (if r.lineText = k then 1 else 0) := by
  by_cases hk : r.lineText = k
  · subst hk
    cases hm : alookup m r.lineText with
    | none => simp [countOf, step, hm, alookup_aupsert_self]
    | some d => simp [countOf, step, hm, alookup_aupsert_self]
  · have hne : k ≠ r.lineText := fun h => hk h.symm
    cases hm : alookup m r.lineText with
    | none => simp [countOf, step, hm, alookup_aupsert_ne _ _ _ _ hne, hk]
    | some d => simp [countOf, step, hm, alookup_aupsert_ne _ _ _ _ hne, hk]

theorem sumLocsOf_step (m : List (String × lineData)) (r : rawLineData) (k : String) :
    sumLocsOf (step m r) k = sumLocsOf m k + (if r.lineText = k then 1 else 0) := by
  by_cases hk : r.lineText = k
  · subst hk
    cases hm : alookup m r.lineText with
    | none => simp [sumLocsOf, step, hm, alookup_aupsert_self, sumLocs]
    | some d => simp [sumLocsOf, step, hm, alookup_aupsert_self, sumLocs_locAppend]
  · have hne : k ≠ r.lineText := fun h => hk h.symm
    cases hm : alookup m r.lineText with
    | none => simp [sumLocsOf, step, hm, alookup_aupsert_ne _ _ _ _ hne, hk]
    | some d => simp [sumLocsOf, step, hm, alookup_aupsert_ne _ _ _ _ hne, hk]

theorem alookup_step_none (m : List (String × lineData)) (r : rawLineData) (k : String) :
    alookup (step m r) k = none ↔ (alookup m k = none ∧ r.lineText ≠ k) := by
  by_cases hk : r.lineText = k
  · subst hk
    cases hm : alookup m r.lineText with
    | none => simp [step, hm, alookup_aupsert_self]
    | some d => simp [step, hm, alookup_aupsert_self]
  · have hne : k ≠ r.lineText := fun h => hk h.symm
    cases hm : alookup m r.lineText with
    | none => simp [step, hm, alookup_aupsert_ne _ _ _ _ hne, hk]
    | some d => simp [step, hm, alookup_aupsert_ne _ _ _ _ hne, hk]

/-! ## Draining the whole arrival list -/

theorem locsOf_foldl (recs : List rawLineData) (m : List (String × lineData)) (k f : String) :
    locsOf (recs.foldl step m) k f =
      locsOf m k f ++
        ((recs.filter (fun r => decide (r.lineText = k ∧ r.fileName = f))).map
          (fun r => r.lineNum)) := by
  induction recs generalizing m with
  | nil => simp
  | cons r rest ih =>
      simp only [List.foldl_cons, List.filter_cons]
      rw [ih, locsOf_step]
      by_cases h : r.lineText = k ∧ r.fileName = f
      · simp [h]
      · simp [h]

theorem countOf_foldl (recs : List rawLineData) (m : List (String × lineData)) (k : String) :
    countOf (recs.foldl step m) k =
      countOf m k + (recs.filter (fun r => decide (r.lineText = k))).length := by
  induction recs generalizing m with
  | nil => simp
  | cons r rest ih =>
      simp only [List.foldl_cons, List.filter_cons]
      rw [ih, countOf_step]
      by_cases h : r.lineText = k <;> simp [h] <;> omega

theorem sumLocsOf_foldl (recs : List rawLineData) (m : List (String × lineData)) (k : String) :
    sumLocsOf (recs.foldl step m) k =
      sumLocsOf m k + (recs.filter (fun r => decide (r.lineText = k))).length := by
  induction recs generalizing m with
  | nil => simp
  | cons r rest ih =>
      simp only [List.foldl_cons, List.filter_cons]
      rw [ih, sumLocsOf_step]
      by_cases h : r.lineText = k <;> simp [h] <;> omega

theorem alookup_foldl_none (recs : List rawLineData) (m : List (String × lineData)) (k : String) :
    alookup (recs.foldl step m) k = none ↔
      (alookup m k = none ∧ recs.filter (fun r => decide (r.lineText = k)) = []) := by
  induction recs generalizing m with
  | nil => simp
  | cons r rest ih =>
      simp only [List.foldl_cons, List.filter_cons]
      rw [ih, alookup_step_none]
      by_cases h : r.lineText = k <;> simp [h, and_assoc]

theorem countView_aggregate (recs : List rawLineData) (k : String) :
    countView (aggregate recs) k =
      if (recs.filter (fun r => decide (r.lineText = k))).length = 0 then none
      else some (recs.filter (fun r => decide (r.lineText = k))).length := by
  cases hm : alookup (aggregate recs) k with
  | none =>
      have h := (alookup_foldl_none recs [] k).mp hm
      simp [countView, hm, h.2]
  | some e =>
      have hc : countOf (aggregate recs) k =
          countOf [] k + (recs.filter (fun r => decide (r.lineText = k))).length :=
        countOf_foldl recs [] k
      have hne : ¬ recs.filter (fun r => decide (r.lineText = k)) = [] := by
        intro hEmpty
        have : alookup (aggregate recs) k = none :=
          (alookup_foldl_none recs [] k).mpr ⟨rfl, hEmpty⟩
        rw [hm] at this
        cases this
      have hlen : ¬ (recs.filter (fun r => decide (r.lineText = k))).length = 0 := by
        simpa [List.length_eq_zero] using hne
      have hcount : e.count = (recs.filter (fun r => decide (r.lineText = k))).length := by
        have h2 : countOf (aggregate recs) k = e.count := by simp [countOf, hm]
        rw [h2] at hc
        simpa [countOf, alookup] using hc
      simp [countView, hm, hlen, hcount]

/-- C1.  Multi-source record conservation: for every arrival list (hence for
every set of sources and every interleaving of their records), an entry of the
final mapping counts exactly the records carrying its key, and the line
numbers stored across its per-source lists total exactly that count. -/
theorem C1_record_conservation (recs : List rawLineData) (k : String) (e : lineData)
    (h : alookup (aggregate recs) k = some e) :
    e.count = (recs.filter (fun r => decide (r.lineText = k))).length ∧
    sumLocs e.locations = e.count := by
  have hc : countOf (aggregate recs) k =
      countOf [] k + (recs.filter (fun r => decide (r.lineText = k))).length :=
    countOf_foldl recs [] k
  have hs : sumLocsOf (aggregate recs) k =
      sumLocsOf [] k + (recs.filter (fun r => decide (r.lineText = k))).length :=
    sumLocsOf_foldl recs [] k
  have hc2 : countOf (aggregate recs) k = e.count := by simp [countOf, h]
  have hs2 : sumLocsOf (aggregate recs) k = sumLocs e.locations := by simp [sumLocsOf, h]
  rw [hc2] at hc
  rw [hs2] at hs
  simp [countOf, sumLocsOf, alookup] at hc hs
  omega

/-- Witness for C1 on the spec's multi-source scenario: source A is
`x, y, x`, source B is `x`; the entry of key `x` has count 3 and
locations A ↦ [1, 3], B ↦ [1]. -/
theorem C1_record_conservation_witness :
    (lineData.mk [("A", [1, 3]), ("B", [1])] 3).count =
      ((sourceRecords "A" ["x", "y", "x"] ++ sourceRecords "B" ["x"]).filter
        (fun r => decide (r.lineText = "x"))).length ∧
    sumLocs (lineData.mk [("A", [1, 3]), ("B", [1])] 3).locations =
      (lineData.mk [("A", [1, 3]), ("B", [1])] 3).count :=
  C1_record_conservation (sourceRecords "A" ["x", "y", "x"] ++ sourceRecords "B" ["x"]) "x"
    (lineData.mk [("A", [1, 3]), ("B", [1])] 3) (by decide)

/-- C4.  Threshold filtering is strict and exhaustive in both paths: an
entry is emitted iff it is in the final mapping and its count strictly
exceeds the threshold. -/
theorem C4_threshold_strict (recs : List rawLineData) (ls : List String)
    (fileName : String) (t : Nat) (k : String) (e : lineData) :
    ((k, e) ∈ filesEmit t (aggregate recs) ↔ ((k, e) ∈ aggregate recs ∧ t < e.count)) ∧
    ((k, e) ∈ sortedEmit t (runSorted fileName ls) ↔
      ((k, e) ∈ runSorted fileName ls ∧ t < e.count)) := by
  constructor <;> simp [filesEmit, sortedEmit, List.mem_filter]

/-! ## Length facts about the key normalizer -/

theorem hexChars_length (bs : List Nat) : (hexChars bs).length = 2 * bs.length := by
  induction bs with
  | nil => simp [hexChars]
  | cons b bs ih =>
      have : hexChars (b :: bs) = byteHex b ++ hexChars bs := rfl
      rw [this]
      simp [byteHex] at ih ⊢
      omega

theorem sha256_length (msg : List Nat) : (sha256 msg).length = 32 := by
  simp [sha256, wordBytes]

theorem hashString_length (s : String) : (hashString s).length = 64 := by
  show (hexChars (sha256 (strBytes s))).length = 64
  rw [hexChars_length, sha256_length]

/-- C3.  The key normalizer `getKey`: below 32 bytes the line is returned
unchanged; at 32 bytes or more the key is the hex SHA-256 digest of the
line's bytes, a string of fixed length 64. -/
theorem C3_key_normalizer (s : String) :
    (byteLen s < 32 → getKey s = s) ∧
    (32 ≤ byteLen s → getKey s = hashString s ∧ (getKey s).length = 64) := by
  constructor
  · intro h
    simp [getKey, h]
  · intro h
    have hnot : ¬ byteLen s < 32 := by omega
    refine ⟨by simp [getKey, hnot], ?_⟩
    simp [getKey, hnot, hashString_length]

/-- Witness for C3 at the boundary lengths 31, 32 and 33 (runs of `a`):
length 31 keeps the line, lengths 32 and 33 produce the 64-character digest. -/
theorem C3_key_normalizer_witness :
    (byteLen (String.mk (List.replicate 31 'a')) < 32 ∧
      getKey (String.mk (List.replicate 31 'a')) = String.mk (List.replicate 31 'a')) ∧
    (32 ≤ byteLen (String.mk (List.replicate 32 'a')) ∧
      (getKey (String.mk (List.replicate 32 'a'))).length = 64) ∧
    (32 ≤ byteLen (String.mk (List.replicate 33 'a')) ∧
      (getKey (String.mk (List.replicate 33 'a'))).length = 64) :=
  ⟨⟨by decide, (C3_key_normalizer (String.mk (List.replicate 31 'a'))).1 (by decide)⟩,
   ⟨by decide, ((C3_key_normalizer (String.mk (List.replicate 32 'a'))).2 (by decide)).2⟩,
   ⟨by decide, ((C3_key_normalizer (String.mk (List.replicate 33 'a'))).2 (by decide)).2⟩⟩

/-! ## Interleaving lemmas -/

theorem shuffle_nil_left {α : Type} (ys : List α) : Shuffle [] ys ys := by
  induction ys with
  | nil => exact .nil
  | cons y ys ih => exact .right ih

theorem shuffle_nil_right {α : Type} (xs : List α) : Shuffle xs [] xs := by
  induction xs with
  | nil => exact .nil
  | cons x xs ih => exact .left ih

theorem shuffle_append {α : Type} (xs ys : List α) : Shuffle xs ys (xs ++ ys) := by
  induction xs with
  | nil => simpa using shuffle_nil_left ys
  | cons x xs ih => exact .left ih

theorem shuffle_append_swap {α : Type} (xs ys : List α) : Shuffle xs ys (ys ++ xs) := by
  induction ys with
  | nil => simpa using shuffle_nil_right xs
  | cons y ys ih => exact .right ih

theorem shuffle_nil_left_eq {α : Type} {ys zs : List α} (h : Shuffle [] ys zs) : zs = ys := by
  generalize hx : ([] : List α) = xs at h
  induction h with
  | nil => rfl
  | left h ih => cases hx
  | right h ih => simpa using ih hx

theorem shuffle_mem {α : Type} {xs ys zs : List α} (h : Shuffle xs ys zs) {z : α}
    (hz : z ∈ zs) : z ∈ xs ∨ z ∈ ys := by
  induction h with
  | nil => cases hz
  | left h ih =>
      rcases List.mem_cons.mp hz with h1 | h1
      · exact Or.inl (h1 ▸ List.mem_cons_self _ _)
      · rcases ih h1 with h2 | h2
        · exact Or.inl (List.mem_cons_of_mem _ h2)
        · exact Or.inr h2
  | right h ih =>
      rcases List.mem_cons.mp hz with h1 | h1
      · exact Or.inr (h1 ▸ List.mem_cons_self _ _)
      · rcases ih h1 with h2 | h2
        · exact Or.inl h2
        · exact Or.inr (List.mem_cons_of_mem _ h2)

theorem shuffle_filter_all_left {α : Type} {xs ys zs : List α} {p : α → Bool}
    (h : Shuffle xs ys zs) (hx : ∀ x ∈ xs, p x = true) (hy : ∀ y ∈ ys, p y = false) :
    zs.filter p = xs := by
  induction h with
  | nil => simp
  | left h ih =>
      rename_i xs' ys' zs' x
      have hpx : p x = true := hx x (List.mem_cons_self _ _)
      have ih2 := ih (fun a ha => hx a (List.mem_cons_of_mem _ ha)) hy
      simp [List.filter_cons, hpx, ih2]
  | right h ih =>
      rename_i xs' ys' zs' y
      have hpy : p y = false := hy y (List.mem_cons_self _ _)
      have ih2 := ih hx (fun a ha => hy a (List.mem_cons_of_mem _ ha))
      simp [List.filter_cons, hpy, ih2]

theorem shuffle_filter_none_left {α : Type} {xs ys zs : List α} {p : α → Bool}
    (h : Shuffle xs ys zs) (hx : ∀ x ∈ xs, p x = false) :
    zs.filter p = ys.filter p := by
  induction h with
  | nil => rfl
  | left h ih =>
      rename_i xs' ys' zs' x
      have hpx : p x = false := hx x (List.mem_cons_self _ _)
      have ih2 := ih (fun a ha => hx a (List.mem_cons_of_mem _ ha))
      simp [List.filter_cons, hpx, ih2]
  | right h ih =>
      rename_i xs' ys' zs' y
      simp only [List.filter_cons]
      rw [ih hx]

theorem shuffle_filter_length {α : Type} {xs ys zs : List α} (p : α → Bool)
    (h : Shuffle xs ys zs) :
    (zs.filter p).length = (xs.filter p).length + (ys.filter p).length := by
  induction h with
  | nil => simp
  | left h ih =>
      rename_i xs' ys' zs' x
      by_cases hp : p x <;> simp [List.filter_cons, hp, ih] <;> omega
  | right h ih =>
      rename_i xs' ys' zs' y
      by_cases hp : p y <;> simp [List.filter_cons, hp, ih] <;> omega

theorem interleave_mem {α : Type} {ls : List (List α)} {out : List α}
    (h : Interleave ls out) {x : α} (hx : x ∈ out) : ∃ l ∈ ls, x ∈ l := by
  induction h with
  | nil => cases hx
  | cons hsh hI ih =>
      rcases shuffle_mem hsh hx with h1 | h1
      · exact ⟨_, List.mem_cons_self _ _, h1⟩
      · obtain ⟨l, hl, hxl⟩ := ih h1
        exact ⟨l, List.mem_cons_of_mem _ hl, hxl⟩

theorem interleave_join {α : Type} (ls : List (List α)) : Interleave ls ls.join := by
  induction ls with
  | nil => exact .nil
  | cons l ls ih => exact .cons (shuffle_append l ls.join) ih

theorem interleave_pair_swap {α : Type} (l1 l2 : List α) : Interleave [l1, l2] (l2 ++ l1) :=
  .cons (shuffle_append_swap l1 l2) (.cons (shuffle_nil_right l2) .nil)

theorem interleave_filter_length {α : Type} {ls : List (List α)} {out : List α}
    (p : α → Bool) (h : Interleave ls out) :
    (out.filter p).length = (ls.map (fun l => (l.filter p).length)).sum := by
  induction h with
  | nil => simp
  | cons hsh hI ih =>
      rw [List.map_cons, List.sum_cons, shuffle_filter_length p hsh, ih]

theorem interleave_nil_middle {α : Type} (l1 l2 : List (List α)) (out : List α) :
    Interleave (l1 ++ [] :: l2) out ↔ Interleave (l1 ++ l2) out := by
  induction l1 generalizing out with
  | nil =>
      constructor
      · intro h
        cases h with
        | cons hsh hI =>
            have := shuffle_nil_left_eq hsh
            subst this
            exact hI
      · intro h
        exact .cons (shuffle_nil_left out) h
  | cons l ls ih =>
      constructor
      · intro h
        cases h with
        | cons hsh hI => exact .cons hsh ((ih _).mp hI)
      · intro h
        cases h with
        | cons hsh hI => exact .cons hsh ((ih _).mpr hI)

/-- Filtering an interleaving by source name recovers that source's own
stream, provided source names are distinct and each stream is tagged with
its name. -/
theorem interleave_filter_name (tagged : List (String × List rawLineData))
    (recs : List rawLineData)
    (hnames : (tagged.map Prod.fst).Nodup)
    (htag : ∀ p ∈ tagged, ∀ x ∈ p.2, x.fileName = p.1)
    (hI : Interleave (tagged.map Prod.snd) recs)
    (f : String) (st : List rawLineData) (hmem : (f, st) ∈ tagged) :
    recs.filter (fun r => decide (r.fileName = f)) = st := by
  induction tagged generalizing recs with
  | nil => cases hmem
  | cons p rest ih =>
      obtain ⟨g, l⟩ := p
      rw [List.map_cons] at hI
      cases hI with
      | cons hsh hI' =>
        rw [List.map_cons, List.nodup_cons] at hnames
        rcases List.mem_cons.mp hmem with hhead | htail
        · obtain ⟨hf, hst⟩ := Prod.mk.inj hhead
          subst hf
          subst hst
          apply shuffle_filter_all_left hsh
          · intro x hx
            simp [htag (f, st) (List.mem_cons_self _ _) x hx]
          · intro y hy
            obtain ⟨l', hl', hyl'⟩ := interleave_mem hI' hy
            obtain ⟨q, hq, hql⟩ := List.mem_map.mp hl'
            have hyname : y.fileName = q.1 := htag q (List.mem_cons_of_mem _ hq) y (hql ▸ hyl')
            have hq1 : q.1 ∈ rest.map Prod.fst := List.mem_map_of_mem _ hq
            have : q.1 ≠ f := by
              intro hEq
              exact hnames.1 (hEq ▸ hq1)
            simp [hyname, this]
        · have hfmem : f ∈ rest.map Prod.fst := List.mem_map_of_mem Prod.fst htail
          have hfg : f ≠ g := fun hEq => hnames.1 (hEq ▸ hfmem)
          rw [shuffle_filter_none_left hsh ?_]
          · exact ih _ hnames.2 (fun q hq => htag q (List.mem_cons_of_mem _ hq)) hI' htail
          · intro x hx
            have : x.fileName = g := htag (g, l) (List.mem_cons_self _ _) x hx
            simp [this, Ne.symm hfg]

/-! ## Properties of one source's record stream -/

theorem mem_collectFrom (f : String) (n : Nat) (ls : List String) (x : rawLineData)
    (h : x ∈ collectFrom f n ls) : x.fileName = f ∧ ∃ l ∈ ls, x.lineText = getKey l := by
  induction ls generalizing n with
  | nil => cases h
  | cons l ls ih =>
      rcases List.mem_cons.mp h with h1 | h1
      · subst h1
        exact ⟨rfl, l, List.mem_cons_self _ _, rfl⟩
      · obtain ⟨hf, l', hl', ht⟩ := ih (n + 1) h1
        exact ⟨hf, l', List.mem_cons_of_mem _ hl', ht⟩

theorem collectFrom_filter_chain (f : String) (p : rawLineData → Bool) (ls : List String)
    (n : Nat) :
    List.Chain' (· < ·) (((collectFrom f n ls).filter p).map (fun r => r.lineNum)) ∧
    ∀ m ∈ ((collectFrom f n ls).filter p).map (fun r => r.lineNum), n < m := by
  induction ls generalizing n with
  | nil => simp [collectFrom]
  | cons l ls ih =>
      have ihn := ih (n + 1)
      simp only [collectFrom, List.filter_cons]
      by_cases hp : p ⟨getKey l, f, n + 1⟩
      · simp only [hp, if_true, List.map_cons]
        constructor
        · rw [List.chain'_cons']
          refine ⟨?_, ihn.1⟩
          intro b hb
          exact ihn.2 b (List.mem_of_mem_head? hb)
        · intro m hm
          rcases List.mem_cons.mp hm with h1 | h1
          · omega
          · have := ihn.2 m h1
            omega
      · simp only [hp, if_false]
        refine ⟨ihn.1, ?_⟩
        intro m hm
        have := ihn.2 m hm
        omega

theorem filter_key_file (recs : List rawLineData) (k f : String) :
    recs.filter (fun r => decide (r.lineText = k ∧ r.fileName = f)) =
      (recs.filter (fun r => decide (r.fileName = f))).filter
        (fun r => decide (r.lineText = k)) := by
  induction recs with
  | nil => rfl
  | cons r rest ih =>
      by_cases hf : r.fileName = f
      · by_cases hk : r.lineText = k <;> simp [List.filter_cons, hf, hk, ih]
      · simp [List.filter_cons, hf, ih]

/-- The per-source location lists of any aggregation, characterised through
the arrival list: entry `k`'s list for source `f` is exactly the line numbers
of the arrivals carrying key `k` and source `f`, in arrival order. -/
theorem locsOf_aggregate (recs : List rawLineData) (k f : String) :
    locsOf (aggregate recs) k f =
      ((recs.filter (fun r => decide (r.lineText = k ∧ r.fileName = f))).map
        (fun r => r.lineNum)) := by
  have h : locsOf (aggregate recs) k f =
      locsOf [] k f ++
        ((recs.filter (fun r => decide (r.lineText = k ∧ r.fileName = f))).map
          (fun r => r.lineNum)) :=
    locsOf_foldl recs [] k f
  simpa [locsOf, alookup] using h

/-- C7.  Per-source ordering: in any interleaved arrival of the per-source
streams (distinct source names), every entry's location list for a source is
a strictly increasing sequence of 1-based line numbers. -/
theorem C7_per_source_ordering (srcs : List (String × List String)) (recs : List rawLineData)
    (hnames : (srcs.map Prod.fst).Nodup)
    (hI : Interleave (okStreams srcs) recs)
    (f : String) (ls : List String) (hmem : (f, ls) ∈ srcs)
    (k : String) (e : lineData) (he : alookup (aggregate recs) k = some e) :
    List.Chain' (· < ·) (locsGet e.locations f) ∧ ∀ n ∈ locsGet e.locations f, 1 ≤ n := by
  have h1 : locsGet e.locations f = locsOf (aggregate recs) k f := by simp [locsOf, he]
  have h4 : recs.filter (fun r => decide (r.fileName = f)) = sourceRecords f ls := by
    apply interleave_filter_name (srcs.map (fun s => (s.1, sourceRecords s.1 s.2))) recs
    · simpa using hnames
    · intro p hp x hx
      obtain ⟨s, hs, hps⟩ := List.mem_map.mp hp
      subst hps
      exact (mem_collectFrom s.1 0 s.2 x hx).1
    · have : (srcs.map (fun s => (s.1, sourceRecords s.1 s.2))).map Prod.snd = okStreams srcs := by
        simp [okStreams]
      rw [this]
      exact hI
    · exact List.mem_map.mpr ⟨(f, ls), hmem, rfl⟩
  have hchain := collectFrom_filter_chain f (fun r => decide (r.lineText = k)) ls 0
  rw [h1, locsOf_aggregate, filter_key_file, h4]
  refine ⟨hchain.1, ?_⟩
  intro n hn
  have := hchain.2 n hn
  omega

/-- Witness for C7: sources A = `x, y, x` and B = `x`, arrivals in
concatenated order; key `x`'s list for source A is `[1, 3]`. -/
theorem C7_per_source_ordering_witness :
    List.Chain' (· < ·) (locsGet (lineData.mk [("A", [1, 3]), ("B", [1])] 3).locations "A") ∧
    ∀ n ∈ locsGet (lineData.mk [("A", [1, 3]), ("B", [1])] 3).locations "A", 1 ≤ n :=
  C7_per_source_ordering [("A", ["x", "y", "x"]), ("B", ["x"])]
    (okStreams [("A", ["x", "y", "x"]), ("B", ["x"])]).join (by decide)
    (interleave_join _) "A" ["x", "y", "x"] (by decide) "x"
    (lineData.mk [("A", [1, 3]), ("B", [1])] 3) (by decide)

/-- C9.  Determinism across interleavings: two runs over the same sources,
with arbitrary (possibly different) arrival interleavings, produce the same
keys, the same count per key, and the same per-source location lists. -/
theorem C9_determinism (srcs : List (String × List String)) (recs1 recs2 : List rawLineData)
    (hnames : (srcs.map Prod.fst).Nodup)
    (h1 : Interleave (okStreams srcs) recs1)
    (h2 : Interleave (okStreams srcs) recs2) (k : String) :
    countView (aggregate recs1) k = countView (aggregate recs2) k ∧
    ∀ f, locsOf (aggregate recs1) k f = locsOf (aggregate recs2) k f := by
  constructor
  · have hl1 := interleave_filter_length (fun r => decide (r.lineText = k)) h1
    have hl2 := interleave_filter_length (fun r => decide (r.lineText = k)) h2
    rw [countView_aggregate, countView_aggregate, hl1, hl2]
  · intro f
    rw [locsOf_aggregate, locsOf_aggregate, filter_key_file, filter_key_file]
    by_cases hf : f ∈ srcs.map Prod.fst
    · obtain ⟨s, hs, hsf⟩ := List.mem_map.mp hf
      have e1 : recs1.filter (fun r => decide (r.fileName = f)) = sourceRecords f s.2 := by
        apply interleave_filter_name (srcs.map (fun t => (t.1, sourceRecords t.1 t.2))) recs1
        · simpa using hnames
        · intro p hp x hx
          obtain ⟨t, ht, hpt⟩ := List.mem_map.mp hp
          subst hpt
          exact (mem_collectFrom t.1 0 t.2 x hx).1
        · have : (srcs.map (fun t => (t.1, sourceRecords t.1 t.2))).map Prod.snd =
              okStreams srcs := by simp [okStreams]
          rw [this]
          exact h1
        · exact List.mem_map.mpr ⟨s, hs, by rw [hsf]⟩
      have e2 : recs2.filter (fun r => decide (r.fileName = f)) = sourceRecords f s.2 := by
        apply interleave_filter_name (srcs.map (fun t => (t.1, sourceRecords t.1 t.2))) recs2
        · simpa using hnames
        · intro p hp x hx
          obtain ⟨t, ht, hpt⟩ := List.mem_map.mp hp
          subst hpt
          exact (mem_collectFrom t.1 0 t.2 x hx).1
        · have : (srcs.map (fun t => (t.1, sourceRecords t.1 t.2))).map Prod.snd =
              okStreams srcs := by simp [okStreams]
          rw [this]
          exact h2
        · exact List.mem_map.mpr ⟨s, hs, by rw [hsf]⟩
      rw [e1, e2]
    · have e1 : recs1.filter (fun r => decide (r.fileName = f)) = [] := by
        rw [List.filter_eq_nil]
        intro x hx
        obtain ⟨l, hl, hxl⟩ := interleave_mem h1 hx
        obtain ⟨s, hs, hsl⟩ := List.mem_map.mp hl
        have hx2 : x ∈ sourceRecords s.1 s.2 := hsl ▸ hxl
        have : x.fileName = s.1 := (mem_collectFrom s.1 0 s.2 x hx2).1
        simp only [this, decide_eq_true_eq]
        intro hEq
        exact hf (hEq ▸ List.mem_map_of_mem Prod.fst hs)
      have e2 : recs2.filter (fun r => decide (r.fileName = f)) = [] := by
        rw [List.filter_eq_nil]
        intro x hx
        obtain ⟨l, hl, hxl⟩ := interleave_mem h2 hx
        obtain ⟨s, hs, hsl⟩ := List.mem_map.mp hl
        have hx2 : x ∈ sourceRecords s.1 s.2 := hsl ▸ hxl
        have : x.fileName = s.1 := (mem_collectFrom s.1 0 s.2 x hx2).1
        simp only [this, decide_eq_true_eq]
        intro hEq
        exact hf (hEq ▸ List.mem_map_of_mem Prod.fst hs)
      rw [e1, e2]

/-- Witness for C9: the same two sources drained in two different arrival
orders (A then B, and B then A) agree on key `x`. -/
theorem C9_determinism_witness :
    countView (aggregate ((okStreams [("A", ["x", "y", "x"]), ("B", ["x"])]).join)) "x" =
      countView (aggregate (sourceRecords "B" ["x"] ++ sourceRecords "A" ["x", "y", "x"])) "x" ∧
    ∀ f, locsOf (aggregate ((okStreams [("A", ["x", "y", "x"]), ("B", ["x"])]).join)) "x" f =
      locsOf (aggregate (sourceRecords "B" ["x"] ++ sourceRecords "A" ["x", "y", "x"])) "x" f :=
  C9_determinism [("A", ["x", "y", "x"]), ("B", ["x"])] _ _ (by decide)
    (interleave_join _) (interleave_pair_swap _ _) "x"

/-- C6.  Per-source partial failure: a source whose open fails emits no
records and only the failure report; inserting such a source among the
others changes nothing — the possible arrival lists (hence every count and
location list the aggregator can produce) are exactly those of the source
list without it, and no record of the failing source ever reaches the
aggregator. -/
theorem C6_partial_failure (pre post : List (String × Option (List String))) (f : String)
    (hf : f ∉ (pre ++ post).map Prod.fst) :
    collectLines f none = ([], true) ∧
    (∀ recs, Interleave (emissions (pre ++ (f, none) :: post)) recs ↔
             Interleave (emissions (pre ++ post)) recs) ∧
    (∀ recs, Interleave (emissions (pre ++ (f, none) :: post)) recs →
             recs.filter (fun r => decide (r.fileName = f)) = []) := by
  have hemit : emissions (pre ++ (f, none) :: post) =
      emissions pre ++ [] :: emissions post := by
    simp [emissions, collectLines]
  have hemit2 : emissions (pre ++ post) = emissions pre ++ emissions post := by
    simp [emissions]
  refine ⟨rfl, ?_, ?_⟩
  · intro recs
    rw [hemit, hemit2]
    exact interleave_nil_middle (emissions pre) (emissions post) recs
  · intro recs hI
    rw [List.filter_eq_nil]
    intro x hx
    rw [hemit] at hI
    obtain ⟨l, hl, hxl⟩ := interleave_mem hI hx
    rcases List.mem_append.mp hl with hpre | hpost
    · obtain ⟨s, hs, hsl⟩ := List.mem_map.mp hpre
      cases hc : s.2 with
      | none =>
          rw [← hsl] at hxl
          simp [collectLines, hc] at hxl
      | some ls =>
          have hx2 : x ∈ sourceRecords s.1 ls := by
            rw [← hsl] at hxl
            simpa [collectLines, hc] using hxl
          have hname : x.fileName = s.1 := (mem_collectFrom s.1 0 ls x hx2).1
          have hs1 : s.1 ∈ (pre ++ post).map Prod.fst := by
            rw [List.map_append]
            exact List.mem_append.mpr (Or.inl (List.mem_map_of_mem Prod.fst hs))
          simp only [hname, decide_eq_true_eq]
          intro hEq
          exact hf (hEq ▸ hs1)
    · rcases List.mem_cons.mp hpost with hnil | hpost'
      · subst hnil
        cases hxl
      · obtain ⟨s, hs, hsl⟩ := List.mem_map.mp hpost'
        cases hc : s.2 with
        | none =>
            rw [← hsl] at hxl
            simp [collectLines, hc] at hxl
        | some ls =>
            have hx2 : x ∈ sourceRecords s.1 ls := by
              rw [← hsl] at hxl
              simpa [collectLines, hc] using hxl
            have hname : x.fileName = s.1 := (mem_collectFrom s.1 0 ls x hx2).1
            have hs1 : s.1 ∈ (pre ++ post).map Prod.fst := by
              rw [List.map_append]
              exact List.mem_append.mpr (Or.inr (List.mem_map_of_mem Prod.fst hs))
            simp only [hname, decide_eq_true_eq]
            intro hEq
            exact hf (hEq ▸ hs1)

/-- Witness for C6 on the spec's missing-file scenario:
`present.txt` holds `x, x` and `missing.txt` fails to open. -/
theorem C6_partial_failure_witness :
    "missing.txt" ∉
      (([("present.txt", some ["x", "x"])] ++
        ([] : List (String × Option (List String)))).map Prod.fst) ∧
    (collectLines "missing.txt" none = ([], true) ∧
     (∀ recs, Interleave
          (emissions ([("present.txt", some ["x", "x"])] ++
            ("missing.txt", none) :: ([] : List (String × Option (List String))))) recs ↔
        Interleave
          (emissions ([("present.txt", some ["x", "x"])] ++
            ([] : List (String × Option (List String))))) recs) ∧
     (∀ recs, Interleave
          (emissions ([("present.txt", some ["x", "x"])] ++
            ("missing.txt", none) :: ([] : List (String × Option (List String))))) recs →
        recs.filter (fun r => decide (r.fileName = "missing.txt")) = [])) :=
  ⟨by decide, C6_partial_failure [("present.txt", some ["x", "x"])] [] "missing.txt" (by decide)⟩

/-! ## The sorted fast path -/

/-- Invariant of the sorted scan: because `prevInputText == ""` doubles as
the no-run-open sentinel, the entry of the empty line (if any) keeps exactly
its single start boundary forever — no end-of-run boundary is ever appended
to it. -/
theorem sortedLoop_empty_singleton (fileName : String) (ls : List String)
    (counts : List (String × lineData)) (prev : String) (i : Nat)
    (hc : ∀ e, alookup counts "" = some e → ∃ n, e.locations = [(fileName, [n])]) :
    ∀ e, alookup (sortedLoop fileName counts prev i ls) "" = some e →
      ∃ n, e.locations = [(fileName, [n])] := by
  induction ls generalizing counts prev i with
  | nil => simpa [sortedLoop] using hc
  | cons l ls ih =>
      rw [sortedLoop]
      cases hm : alookup counts l with
      | none =>
          apply ih
          intro e he
          by_cases hl : l = ""
          · subst hl
            rw [alookup_aupsert_self] at he
            cases he
            exact ⟨i, rfl⟩
          · rw [alookup_aupsert_ne _ _ _ _ (Ne.symm hl)] at he
            by_cases hp : prev = ""
            · simp only [hp, if_pos rfl] at he
              exact hc e he
            · simp only [if_neg hp] at he
              rw [alookup_aupsert_ne _ _ _ _ (Ne.symm hp)] at he
              exact hc e he
      | some d =>
          apply ih
          intro e he
          by_cases hl : l = ""
          · subst hl
            rw [alookup_aupsert_self] at he
            cases he
            obtain ⟨n, hn⟩ := hc d hm
            exact ⟨n, hn⟩
          · rw [alookup_aupsert_ne _ _ _ _ (Ne.symm hl)] at he
            exact hc e he

/-- C10 (implicit behaviour).  In the sorted fast path the empty string is
also the no-run-open sentinel, so for every input (in particular one where a
run of empty lines is followed by a different line) the empty line's entry
never receives an end-of-run boundary: its location list stays the singleton
start boundary, and the run after an empty-line run closes no previous run. -/
theorem C10_empty_sentinel (fileName : String) (ls : List String) (e : lineData)
    (h : alookup (runSorted fileName ls) "" = some e) :
    ∃ n, e.locations = [(fileName, [n])] := by
  apply sortedLoop_empty_singleton fileName ls [] "" 1 ?_ e h
  intro e' he'
  cases he'

/-- Witness for C10: sorted input `"", "", "x"` — the empty line's run is
followed by `x`, yet its entry keeps only the start boundary `[1]` (count 2,
no end boundary ever recorded). -/
theorem C10_empty_sentinel_witness :
    ∃ n, (lineData.mk [("f", [1])] 2).locations = [("f", [n])] :=
  C10_empty_sentinel "f" ["", "", "x"] (lineData.mk [("f", [1])] 2) (by decide)

/-- C2 demonstration at the failing input: on the sorted input `a, a` the
scan ends with the run of `a` still open — no terminal finalization exists in
`DupDetectSorted` — so the qualifying entry (count 2 > threshold 1) holds
only its start boundary `[1]`, and the report's unconditional access to
`locations[fileName][1]` is out of bounds (a runtime panic in Go). -/
theorem C2_final_flush_missing :
    alookup (runSorted "f" ["a", "a"]) "a" = some (lineData.mk [("f", [1])] 2) ∧
    1 < (lineData.mk [("f", [1])] 2).count ∧
    (locsGet (lineData.mk [("f", [1])] 2).locations "f").length = 1 := by
  decide

/-- C5.  The spec's sorted fast-path worked example: input
`a, a, a, b, b, c` with threshold 1 reports exactly `a` (count 3, start 1,
end 3) and `b` (count 2, start 4, end 5); `c` stays in the mapping with
count 1 and is excluded by the filter. -/
theorem C5_sorted_example :
    sortedReport "f" 1 (runSorted "f" ["a", "a", "a", "b", "b", "c"]) =
      [(3, "a", 1, 3), (2, "b", 4, 5)] ∧
    (sortedEmit 1 (runSorted "f" ["a", "a", "a", "b", "b", "c"])).map Prod.fst = ["a", "b"] ∧
    alookup (runSorted "f" ["a", "a", "a", "b", "b", "c"]) "c" =
      some (lineData.mk [("f", [6])] 1) := by
  decide

/-! ## What the multi-source report can print -/

theorem mem_aupsert_keys {α : Type} (m : List (String × α)) (k k' : String) (v v' : α)
    (h : (k, v) ∈ aupsert m k' v') : k = k' ∨ ∃ w, (k, w) ∈ m := by
  induction m with
  | nil =>
      simp [aupsert] at h
      exact Or.inl h.1
  | cons p rest ih =>
      obtain ⟨g, w⟩ := p
      by_cases hg : k' = g
      · subst hg
        rw [aupsert, if_pos rfl] at h
        rcases List.mem_cons.mp h with h1 | h1
        · exact Or.inl (congrArg Prod.fst h1)
        · exact Or.inr ⟨v, List.mem_cons_of_mem _ h1⟩
      · rw [aupsert, if_neg hg] at h
        rcases List.mem_cons.mp h with h1 | h1
        · obtain ⟨hk, hv⟩ := Prod.mk.inj h1
          exact Or.inr ⟨w, hk ▸ List.mem_cons_self _ _⟩
        · rcases ih h1 with h2 | ⟨w', hw'⟩
          · exact Or.inl h2
          · exact Or.inr ⟨w', List.mem_cons_of_mem _ hw'⟩

theorem mem_step_keys (m : List (String × lineData)) (r : rawLineData) (k : String)
    (v : lineData) (h : (k, v) ∈ step m r) : k = r.lineText ∨ ∃ w, (k, w) ∈ m := by
  unfold step at h
  cases hm : alookup m r.lineText with
  | none =>
      rw [hm] at h
      exact mem_aupsert_keys m k r.lineText v _ h
  | some d =>
      rw [hm] at h
      exact mem_aupsert_keys m k r.lineText v _ h

theorem mem_foldl_keys (recs : List rawLineData) (m : List (String × lineData))
    (k : String) (v : lineData) (h : (k, v) ∈ recs.foldl step m) :
    (∃ w, (k, w) ∈ m) ∨ ∃ r ∈ recs, r.lineText = k := by
  induction recs generalizing m with
  | nil => exact Or.inl ⟨v, h⟩
  | cons r rest ih =>
      rcases ih (step m r) h with ⟨w, hw⟩ | ⟨r', hr', hk⟩
      · rcases mem_step_keys m r k w hw with h1 | ⟨w', hw'⟩
        · exact Or.inr ⟨r, List.mem_cons_self _ _, h1.symm⟩
        · exact Or.inl ⟨w', hw'⟩
      · exact Or.inr ⟨r', List.mem_cons_of_mem _ hr', hk⟩

/-- C8 counterexample: a qualifying 32-byte line (32 `a`s, twice in one
source) is reported as its `getKey` digest, which differs from the raw
line — the printed line field is not the original text. -/
theorem C8_report_counterexample :
    (filesEmit 1 (aggregate (sourceRecords "f"
        ["aaaaaaaaaaaaaaaaaaaaaaaaaaaaaaaa", "aaaaaaaaaaaaaaaaaaaaaaaaaaaaaaaa"]))).map
      Prod.fst = [getKey "aaaaaaaaaaaaaaaaaaaaaaaaaaaaaaaa"] ∧
    getKey "aaaaaaaaaaaaaaaaaaaaaaaaaaaaaaaa" ≠ "aaaaaaaaaaaaaaaaaaaaaaaaaaaaaaaa" := by
  constructor
  · simp [sourceRecords, collectFrom, aggregate, step, alookup, aupsert, locAppend,
          locsGet, filesEmit]
  · intro hEq
    have h1 : ¬ byteLen "aaaaaaaaaaaaaaaaaaaaaaaaaaaaaaaa" < 32 := by decide
    have h2 : (getKey "aaaaaaaaaaaaaaaaaaaaaaaaaaaaaaaa").length = 64 := by
      have : getKey "aaaaaaaaaaaaaaaaaaaaaaaaaaaaaaaa" =
          hashString "aaaaaaaaaaaaaaaaaaaaaaaaaaaaaaaa" := by
        simp [getKey, h1]
      rw [this, hashString_length]
    rw [hEq] at h2
    exact absurd h2 (by decide)

/-- C8 as the code has it: the text the multi-source report prints for a
qualifying entry is that entry's NormalizedKey — `getKey` of some input
line — and only for lines shorter than 32 bytes does that key equal the raw
line. -/
theorem C8_report_key_fidelity (srcs : List (String × List String)) (recs : List rawLineData)
    (hI : Interleave (okStreams srcs) recs) (t : Nat) (k : String) (e : lineData)
    (hmem : (k, e) ∈ filesEmit t (aggregate recs)) :
    (∃ s ∈ srcs, ∃ l ∈ s.2, k = getKey l) ∧
    ∀ l : String, byteLen l < 32 → getKey l = l := by
  constructor
  · have hmem2 : (k, e) ∈ aggregate recs := (List.mem_filter.mp hmem).1
    rcases mem_foldl_keys recs [] k e hmem2 with ⟨w, hw⟩ | ⟨r, hr, hk⟩
    · cases hw
    · obtain ⟨l', hl', hxl⟩ := interleave_mem hI hr
      obtain ⟨s, hs, hsl⟩ := List.mem_map.mp hl'
      have hr2 : r ∈ sourceRecords s.1 s.2 := hsl ▸ hxl
      obtain ⟨hfn, l, hl, ht⟩ := mem_collectFrom s.1 0 s.2 r hr2
      exact ⟨s, hs, l, hl, by rw [← hk, ht]⟩
  · intro l hl
    simp [getKey, hl]

/-- Witness for the amended C8: with sources A = `x, y, x` and B = `x`
drained in concatenated order, the reported text `x` is the `getKey` of an
input line. -/
theorem C8_report_key_fidelity_witness :
    ∃ s ∈ [("A", ["x", "y", "x"]), ("B", ["x"])], ∃ l ∈ s.2, "x" = getKey l :=
  (C8_report_key_fidelity [("A", ["x", "y", "x"]), ("B", ["x"])]
    ((okStreams [("A", ["x", "y", "x"]), ("B", ["x"])]).join) (interleave_join _) 1 "x"
    (lineData.mk [("A", [1, 3]), ("B", [1])] 3) (by decide)).1

end Ex3
